import Mathlib

/-!
# RascalDB: a verification development of the storage engine

Shallow embedding of the rascaldb key-value log-structured storage engine:
the record codec (`encode`/`decode` in segment.go), the segment append/read
path (`segment.write`, `segment.read`, `segment.loadIndex`), the trunk
manifest (`readSegmentNames`/`writeSegmentNames` in trunk.go) and the
engine operations (`Open`/`Set`/`Get` in rascaldb.go).

Bytes are modelled as natural numbers (file contents produced by the Go code
are always in 0..255); Go strings and byte slices both become `List Nat`,
Go's `map[string]int64` index becomes a function `List Nat → Option Nat`,
and `int64` offsets become `Nat` (they are non-negative throughout).
The 32-bit record-length arithmetic of `recordLen` (Go `uint32`) is modelled
with explicit `% 4294967296`.
-/

namespace RascalDB

/-- `U32 = 2^32`, the modulus of Go `uint32` arithmetic. -/
def U32 : Nat := 4294967296

/-- `recordLenSize` from segment.go: bytes used by the length header. -/
def recordLenSize : Nat := 4

/-- `kvDelimeter` from segment.go: the zero byte separating key from value. -/
def kvDelim : Nat := 0

/-- Go `uint32(n)`: truncation to 32 bits. -/
def u32 (n : Nat) : Nat := n % U32

/-- `recordLen key value` from segment.go:
`recordLenSize + uint32(len(key)) + 1 + uint32(len(value))` in `uint32`
arithmetic. -/
def recordLen (key value : List Nat) : Nat :=
  u32 (recordLenSize + u32 key.length + 1 + u32 value.length)

/-- `binary.LittleEndian.PutUint32`: the 4 little-endian bytes of `n`. -/
def le32 (n : Nat) : List Nat :=
  [n % 256, n / 256 % 256, n / 65536 % 256, n / 16777216 % 256]

/-- `binary.LittleEndian.Uint32`: assemble a (4-byte) list into a number.
Each entry is reduced `% 256` because the Go slice holds bytes. -/
def le32decList (b : List Nat) : Nat :=
  b.foldr (fun x acc => x % 256 + 256 * acc) 0

/-- `encode key value` from segment.go: 4-byte little-endian record length,
then the key bytes, the zero delimiter, and the value bytes. -/
def encode (key value : List Nat) : List Nat :=
  le32 (recordLen key value) ++ key ++ kvDelim :: value

/-- `bytes.IndexByte`: index of the first occurrence of `c`, if any
(Go returns -1 when absent; here `none`). -/
def indexByte : List Nat → Nat → Option Nat
  | [], _ => none
  | x :: xs, c => if x = c then some 0 else (indexByte xs c).map (· + 1)

/-- `decode b` from segment.go: skip the 4-byte length header, split at the
first zero byte; everything before it is the key, everything after it the
value.  When no delimiter is found the Go code returns `("", nil)`, modelled
here as `([], [])`. -/
def decode (b : List Nat) : List Nat × List Nat :=
  let b2 := b.drop recordLenSize
  match indexByte b2 kvDelim with
  | none => ([], [])
  | some i => (b2.take i, b2.drop (i + 1))

/-! ## Basic codec lemmas -/

theorem le32_length (n : Nat) : (le32 n).length = 4 := rfl

theorem le32decList_le32 (n : Nat) : le32decList (le32 n) = n % U32 := by
  simp only [le32, le32decList, List.foldr, U32]
  omega

theorem le32decList_lt_of_len4 (a b c d : Nat) :
    le32decList [a, b, c, d] < U32 := by
  simp only [le32decList, List.foldr, U32]
  omega

/-- Without 32-bit overflow, `recordLen` is the exact record size. -/
theorem recordLen_eq (key value : List Nat)
    (h : 4 + key.length + 1 + value.length < U32) :
    recordLen key value = 4 + key.length + 1 + value.length := by
  simp only [recordLen, u32, recordLenSize, U32] at *
  omega

theorem recordLen_mod (key value : List Nat) :
    recordLen key value = (4 + key.length + 1 + value.length) % U32 := by
  simp only [recordLen, u32, recordLenSize, U32]
  omega

theorem encode_length (key value : List Nat) :
    (encode key value).length = 4 + key.length + 1 + value.length := by
  simp only [encode, List.length_append, le32_length, List.length_cons]
  omega

theorem le32_mod (n : Nat) : le32 (n % U32) = le32 n := by
  simp only [le32, U32, List.cons.injEq, and_true]
  exact ⟨by omega, by omega, by omega, by omega⟩

theorem indexByte_append_delim (key value : List Nat) (c : Nat)
    (hk : ∀ x ∈ key, x ≠ c) :
    indexByte (key ++ c :: value) c = some key.length := by
  induction key with
  | nil => simp [indexByte]
  | cons x xs ih =>
      have hx : x ≠ c := hk x (by simp)
      have ih2 := ih (fun y hy => hk y (by simp [hy]))
      simp [indexByte, hx, ih2]

theorem indexByte_some_lt (b : List Nat) (c i : Nat)
    (h : indexByte b c = some i) : i < b.length := by
  induction b generalizing i with
  | nil => simp [indexByte] at h
  | cons x xs ih =>
      rw [indexByte] at h
      split at h
      · injection h with h2
        subst h2
        simp
      · rw [Option.map_eq_some'] at h
        obtain ⟨j, hj, rfl⟩ := h
        have := ih j hj
        simp only [List.length_cons]
        omega

theorem indexByte_none (b : List Nat) (c : Nat)
    (h : ∀ x ∈ b, x ≠ c) : indexByte b c = none := by
  induction b with
  | nil => rfl
  | cons x xs ih =>
      have hx : x ≠ c := h x (by simp)
      simp [indexByte, hx, ih (fun y hy => h y (by simp [hy]))]

/-- Core round-trip lemma: decoding an encoded record with a delimiter-free
key recovers the key and the value. -/
theorem decode_encode (key value : List Nat)
    (hk : ∀ x ∈ key, x ≠ kvDelim) :
    decode (encode key value) = (key, value) := by
  have hdrop : (encode key value).drop recordLenSize = key ++ kvDelim :: value := by
    have : recordLenSize = (le32 (recordLen key value)).length := by
      simp [le32_length, recordLenSize]
    rw [encode, List.append_assoc, this, List.drop_left]
  have hidx : indexByte (key ++ kvDelim :: value) kvDelim = some key.length :=
    indexByte_append_delim key value kvDelim hk
  simp only [decode, hdrop, hidx, Prod.mk.injEq]
  refine ⟨?_, ?_⟩
  · exact List.take_left key (kvDelim :: value)
  · have : key ++ kvDelim :: value = (key ++ [kvDelim]) ++ value := by simp
    rw [this]
    have hlen : key.length + 1 = (key ++ [kvDelim]).length := by simp
    rw [hlen, List.drop_left]

/-! ## Segment -/

/-- The `segment` struct from segment.go.  `file` is the on-disk byte
content (shared by the read handle `fr` and write handle `fw`), `wpos` the
write handle's position (the file is opened `O_CREATE|O_WRONLY`, without
`O_APPEND`, so writes land at the handle's running position, starting at 0),
`offset` the `offset` field, and `index` the `map[string]int64` index. -/
structure Segment where
  name : List Nat
  file : List Nat
  wpos : Nat
  offset : Nat
  index : List Nat → Option Nat

/-- The empty index `make(map[string]int64)`. -/
def emptyIndex : List Nat → Option Nat := fun _ => none

/-- Go map assignment `index[key] = off`. -/
def updIndex (idx : List Nat → Option Nat) (key : List Nat) (off : Nat) :
    List Nat → Option Nat :=
  fun q => if q = key then some off else idx q

/-- Writing bytes `b` at position `pos` of a file (POSIX `pwrite`
semantics: overwrite in place, zero-fill any gap, extend at the end). -/
def writeAt (file : List Nat) (pos : Nat) (b : List Nat) : List Nat :=
  file.take pos ++ List.replicate (pos - file.length) 0 ++ b
    ++ file.drop (pos + b.length)

/-- Errors surfaced by the read path. `eof` is Go's `io.EOF` from
`File.ReadAt`; `slicePanic` models the out-of-range slicing panic `b[4:]`
in `decode` when the length header is below 4. -/
inductive RErr where
  | eof
  | slicePanic
deriving DecidableEq

/-- Errors surfaced by the write path: a failed `fw.Write` or a failed
`fw.Sync`. -/
inductive WErr where
  | writeFailed
  | syncFailed
deriving DecidableEq

/-- `File.ReadAt` on `file`: read exactly `n` bytes at absolute offset
`off`; a short read is `io.EOF`. -/
def readAtN (file : List Nat) (off n : Nat) : Except RErr (List Nat) :=
  if off + n ≤ file.length then .ok ((file.drop off).take n) else .error .eof

/-- `segment.read(offset)` from segment.go: read the 4-byte length header at
`offset`, then re-read the whole record of that length at `offset`, and
decode it. -/
def segRead (file : List Nat) (off : Nat) :
    Except RErr (List Nat × List Nat) :=
  match readAtN file off recordLenSize with
  | .error e => .error e
  | .ok lenB =>
      let blen := le32decList lenB
      match readAtN file off blen with
      | .error e => .error e
      | .ok b =>
          if blen < recordLenSize then .error .slicePanic
          else .ok (decode b)

/-- `segment.write(key, value)` from segment.go.  The booleans are the
success of the underlying `fw.Write` and `fw.Sync` calls.  On either
failure the error is returned before the index or offset are touched; on a
sync failure the bytes have already reached the file. -/
def segWrite (s : Segment) (key value : List Nat) (wOk sOk : Bool) :
    Option WErr × Segment :=
  if wOk = false then (some .writeFailed, s)
  else
    let b := encode key value
    let s1 : Segment :=
      { s with file := writeAt s.file s.wpos b, wpos := s.wpos + b.length }
    if sOk = false then (some .syncFailed, s1)
    else
      (none,
        { s1 with
          index := updIndex s1.index key s.offset
          offset := s.offset + b.length })

/-- Any successful `segment.read` starts within the file and yields a pair
whose `recordLen` is positive (the loop advance in `loadIndex`). -/
theorem segRead_ok_bounds (file : List Nat) (off : Nat)
    (key value : List Nat)
    (h : segRead file off = .ok (key, value)) :
    off + 4 ≤ file.length ∧ 1 ≤ recordLen key value := by
  rw [segRead] at h
  cases h1 : readAtN file off recordLenSize with
  | error e => rw [h1] at h; exact absurd h (by simp)
  | ok lenB =>
      rw [h1] at h
      dsimp only at h
      have hoff : off + 4 ≤ file.length := by
        rw [readAtN] at h1
        by_cases hc : off + recordLenSize ≤ file.length
        · simpa [recordLenSize] using hc
        · rw [if_neg hc] at h1; exact absurd h1 (by simp)
      refine ⟨hoff, ?_⟩
      cases h2 : readAtN file off (le32decList lenB) with
      | error e => rw [h2] at h; exact absurd h (by simp)
      | ok b =>
          rw [h2] at h
          dsimp only at h
          by_cases hlt : le32decList lenB < recordLenSize
          · rw [if_pos hlt] at h; exact absurd h (by simp)
          · rw [if_neg hlt] at h
            have hdec : decode b = (key, value) := by
              injection h with h3
            have hblen : b.length = le32decList lenB := by
              rw [readAtN] at h2
              by_cases hc : off + le32decList lenB ≤ file.length
              · rw [if_pos hc] at h2
                injection h2 with h4
                subst h4
                simp
                omega
              · rw [if_neg hc] at h2; exact absurd h2 (by simp)
            rw [decode] at hdec
            cases hix : indexByte (b.drop recordLenSize) kvDelim with
            | none =>
                rw [hix] at hdec
                simp only at hdec
                injection hdec with hk hv
                subst hk
                subst hv
                rw [recordLen]
                simp [u32, U32, recordLenSize]
            | some i =>
                rw [hix] at hdec
                simp only at hdec
                injection hdec with hk hv
                have hi : i < (b.drop recordLenSize).length :=
                  indexByte_some_lt _ _ _ hix
                have hklen : key.length = i := by
                  rw [← hk, List.length_take]
                  omega
                have hvlen : value.length = (b.drop recordLenSize).length - (i + 1) := by
                  rw [← hv, List.length_drop]
                have hb4 : (b.drop recordLenSize).length = b.length - 4 := by
                  simp [recordLenSize]
                have hlenb4 : lenB.length = 4 := by
                  rw [readAtN, if_pos (by simpa [recordLenSize] using hoff)] at h1
                  injection h1 with h4
                  subst h4
                  simp [recordLenSize]
                  omega
                have hlt32 : le32decList lenB < U32 := by
                  match lenB, hlenb4 with
                  | [a, b2, c, d], _ => exact le32decList_lt_of_len4 a b2 c d
                rw [recordLen]
                simp only [u32, recordLenSize, U32] at *
                omega

/-- The recovery loop inside `segment.loadIndex` from segment.go: read one
record at the cursor, record `key -> offset`, advance the cursor by
`recordLen`, stop successfully at `io.EOF`, propagate any other error. -/
def loadLoop (file : List Nat) (offset : Nat)
    (idx : List Nat → Option Nat) :
    Except RErr (List Nat → Option Nat) :=
  match h : segRead file offset with
  | .ok (key, value) =>
      loadLoop file (offset + recordLen key value) (updIndex idx key offset)
  | .error .eof => .ok idx
  | .error e => .error e
termination_by file.length - offset
decreasing_by
  have := segRead_ok_bounds file offset key value h
  omega

/-- `segment.loadIndex()` from segment.go: replay `file` from offset 0 into
the segment's index.  Note the Go code leaves `s.offset` untouched. -/
def loadIndex (s : Segment) : Except RErr Segment :=
  match loadLoop s.file 0 s.index with
  | .ok idx => .ok { s with index := idx }
  | .error e => .error e

theorem recordLen_lt (key value : List Nat) : recordLen key value < U32 := by
  simp only [recordLen, u32, U32]
  omega

theorem recordLen_mod_self (key value : List Nat) :
    recordLen key value % U32 = recordLen key value :=
  Nat.mod_eq_of_lt (recordLen_lt key value)

theorem writeAt_append (file b : List Nat) :
    writeAt file file.length b = file ++ b := by
  rw [writeAt, List.take_length, Nat.sub_self, List.replicate_zero,
    List.drop_eq_nil_of_le (by omega)]
  simp

/-- Reading at the boundary of a well-formed record returns that record's
key and value. -/
theorem segRead_at_record (pre key value post : List Nat)
    (hk : ∀ x ∈ key, x ≠ kvDelim)
    (hov : 4 + key.length + 1 + value.length < U32) :
    segRead (pre ++ (encode key value ++ post)) pre.length
      = .ok (key, value) := by
  have henc := encode_length key value
  have hrl := recordLen_eq key value hov
  have hdrop : (pre ++ (encode key value ++ post)).drop pre.length
      = encode key value ++ post := List.drop_left pre _
  have hlen : (pre ++ (encode key value ++ post)).length
      = pre.length + ((4 + key.length + 1 + value.length) + post.length) := by
    simp only [List.length_append, henc]
  have htake4 : (encode key value ++ post).take recordLenSize
      = le32 (recordLen key value) := by
    rw [encode, List.append_assoc,
      show recordLenSize = (le32 (recordLen key value)).length from rfl]
    exact List.take_left _ _
  have htakeAll : (encode key value ++ post).take (recordLen key value)
      = encode key value := by
    rw [hrl, ← henc]
    exact List.take_left _ _
  have h1 : readAtN (pre ++ (encode key value ++ post)) pre.length
      recordLenSize = .ok (le32 (recordLen key value)) := by
    rw [readAtN, if_pos (by rw [hlen]; simp [recordLenSize]; omega)]
    rw [hdrop, htake4]
  have h2 : readAtN (pre ++ (encode key value ++ post)) pre.length
      (recordLen key value) = .ok (encode key value) := by
    rw [readAtN, if_pos (by rw [hlen, hrl]; omega)]
    rw [hdrop, htakeAll]
  rw [segRead, h1]
  dsimp only
  rw [le32decList_le32, recordLen_mod_self, h2]
  dsimp only
  rw [if_neg (by rw [hrl]; simp only [recordLenSize]; omega)]
  rw [decode_encode key value hk]

/-! ## Specification-side recovery functions -/

/-- The concatenated on-disk image of a list of records. -/
def encodeAll : List (List Nat × List Nat) → List Nat
  | [] => []
  | (key, value) :: ps => encode key value ++ encodeAll ps

/-- A record the engine is specified for: a delimiter-free key and a total
encoded size below 2^32 (spec section 4.1's documented limit). -/
def goodRec (key value : List Nat) : Prop :=
  (∀ x ∈ key, x ≠ kvDelim) ∧ 4 + key.length + 1 + value.length < U32

instance (key value : List Nat) : Decidable (goodRec key value) := by
  unfold goodRec
  infer_instance

def goodRecs (ps : List (List Nat × List Nat)) : Prop :=
  ∀ p ∈ ps, goodRec p.1 p.2

instance (ps : List (List Nat × List Nat)) : Decidable (goodRecs ps) := by
  unfold goodRecs
  infer_instance

/-- Last-write-wins offset map: the byte offset of the most recent record
for a key in a list of records laid out consecutively from `base`. -/
def lastOffset : List (List Nat × List Nat) → Nat → List Nat → Option Nat
  | [], _, _ => none
  | (key, value) :: ps, base, q =>
      match lastOffset ps (base + (encode key value).length) q with
      | some o => some o
      | none => if q = key then some base else none

/-- An index extended by the last-write-wins offsets of `ps`. -/
def mergeIdx (idx : List Nat → Option Nat)
    (ps : List (List Nat × List Nat)) (base : Nat) :
    List Nat → Option Nat :=
  fun q =>
    match lastOffset ps base q with
    | some o => some o
    | none => idx q

theorem mergeIdx_nil (idx : List Nat → Option Nat) (base : Nat) :
    mergeIdx idx [] base = idx := by
  funext q
  rfl

theorem mergeIdx_cons (idx : List Nat → Option Nat)
    (key value : List Nat) (ps : List (List Nat × List Nat)) (base : Nat) :
    mergeIdx (updIndex idx key base) ps (base + (encode key value).length)
      = mergeIdx idx ((key, value) :: ps) base := by
  funext q
  simp only [mergeIdx, lastOffset, updIndex]
  cases lastOffset ps (base + (encode key value).length) q with
  | some o => rfl
  | none =>
      by_cases hq : q = key
      · simp [hq]
      · simp [hq]

/-- The recovery loop, run on a file consisting of well-formed records laid
out from the end of a prefix, succeeds and yields the last-write-wins
index merged over the starting index. -/
theorem loadLoop_encodeAll (ps : List (List Nat × List Nat))
    (h : goodRecs ps) (pre : List Nat) (idx : List Nat → Option Nat) :
    loadLoop (pre ++ encodeAll ps) pre.length idx
      = .ok (mergeIdx idx ps pre.length) := by
  induction ps generalizing pre idx with
  | nil =>
      rw [loadLoop]
      have heof : segRead (pre ++ encodeAll []) pre.length = .error .eof := by
        rw [segRead, readAtN, if_neg (by simp [encodeAll, recordLenSize])]
      rw [mergeIdx_nil]
      split
      · rename_i key value hread
        rw [heof] at hread
        exact absurd hread (by simp)
      · rfl
      · rename_i e hne hread
        rw [heof] at hread
        injection hread with h2
        exact absurd h2.symm (by simpa using hne)
  | cons p ps ih =>
      obtain ⟨key, value⟩ := p
      have hg : goodRec key value := h (key, value) (by simp)
      have hps : goodRecs ps := fun q hq => h q (by simp [hq])
      have hread : segRead (pre ++ encodeAll ((key, value) :: ps)) pre.length
          = .ok (key, value) := by
        rw [show encodeAll ((key, value) :: ps)
            = encode key value ++ encodeAll ps from rfl]
        exact segRead_at_record pre key value (encodeAll ps) hg.1 hg.2
      rw [loadLoop]
      split
      · rename_i key2 value2 hr2
        rw [hread] at hr2
        injection hr2 with h2
        rw [Prod.mk.injEq] at h2
        obtain ⟨hk, hv⟩ := h2
        subst hk
        subst hv
        have hstep : pre.length + recordLen key value
            = (pre ++ encode key value).length := by
          rw [recordLen_eq key value hg.2, ← encode_length key value]
          simp
        have hfile : pre ++ encodeAll ((key, value) :: ps)
            = (pre ++ encode key value) ++ encodeAll ps := by
          simp [encodeAll]
        rw [hstep, hfile, ih hps (pre ++ encode key value) _]
        rw [show (pre ++ encode key value).length
            = pre.length + (encode key value).length from by simp]
        rw [mergeIdx_cons]
      · rename_i hr2
        rw [hread] at hr2
        exact absurd hr2 (by simp)
      · rename_i e hne hr2
        rw [hread] at hr2
        exact absurd hr2 (by simp)

/-! ## Sequences of writes -/

/-- A sequence of successful `segment.write` calls. -/
def writeAll (s : Segment) : List (List Nat × List Nat) → Segment
  | [] => s
  | (key, value) :: ps => writeAll (segWrite s key value true true).2 ps

theorem segWrite_ok (s : Segment) (key value : List Nat) :
    segWrite s key value true true
      = (none,
        { s with
          file := writeAt s.file s.wpos (encode key value)
          wpos := s.wpos + (encode key value).length
          index := updIndex s.index key s.offset
          offset := s.offset + (encode key value).length }) := rfl

/-- Running a batch of successful writes from a write-consistent state
(`wpos = offset = file length`): offsets advance by the total encoded
size, the file grows by exactly the encoded records, write-consistency is
preserved, and the index becomes the last-write-wins map over the batch. -/
theorem writeAll_props (ps : List (List Nat × List Nat)) (s : Segment)
    (hw : s.wpos = s.offset) (hf : s.offset = s.file.length) :
    (writeAll s ps).offset = s.offset + (encodeAll ps).length ∧
    (writeAll s ps).file = s.file ++ encodeAll ps ∧
    (writeAll s ps).wpos = (writeAll s ps).offset ∧
    (writeAll s ps).index = mergeIdx s.index ps s.offset := by
  induction ps generalizing s with
  | nil =>
      refine ⟨by simp [writeAll, encodeAll], by simp [writeAll, encodeAll],
        by simp [writeAll, hw], ?_⟩
      rw [writeAll, mergeIdx_nil]
  | cons p ps ih =>
      obtain ⟨key, value⟩ := p
      have hfile : writeAt s.file s.wpos (encode key value)
          = s.file ++ encode key value := by
        rw [hw, hf, writeAt_append]
      have hstep : writeAll s ((key, value) :: ps)
          = writeAll
            { s with
              file := s.file ++ encode key value
              wpos := s.wpos + (encode key value).length
              index := updIndex s.index key s.offset
              offset := s.offset + (encode key value).length } ps := by
        rw [writeAll, segWrite_ok, hfile]
      obtain ⟨ho, hfl, hwp, hix⟩ := ih
        { s with
          file := s.file ++ encode key value
          wpos := s.wpos + (encode key value).length
          index := updIndex s.index key s.offset
          offset := s.offset + (encode key value).length }
        (by simp [hw]) (by simp [hf])
      rw [hstep]
      refine ⟨?_, ?_, hwp, ?_⟩
      · rw [ho]; simp [encodeAll]; omega
      · rw [hfl]; simp [encodeAll]
      · rw [hix]
        exact mergeIdx_cons s.index key value ps s.offset

/-! ## Database engine -/

/-- Errors of the public `Get`: `ErrKeyNotFound`, or an I/O error from the
segment read propagated verbatim. -/
inductive DBErr where
  | keyNotFound
  | ioFail (e : RErr)
deriving DecidableEq

/-- The loop body of `DB.Get` from rascaldb.go, iterating segments
newest-first (the Go loop runs indices from `len(ss)-1` down to `0`;
here it receives the reversed published slice). -/
def dbGetLoop : List Segment → List Nat → Except DBErr (List Nat)
  | [], _ => .error .keyNotFound
  | s :: rest, key =>
      match s.index key with
      | some off =>
          match segRead s.file off with
          | .ok kv => .ok kv.2
          | .error e => .error (.ioFail e)
      | none => dbGetLoop rest key

/-- `DB.Get` from rascaldb.go over the published segment slice `ss`
(oldest first, as stored in `db.segments`). -/
def dbGet (ss : List Segment) (key : List Nat) : Except DBErr (List Nat) :=
  dbGetLoop ss.reverse key

/-- Specification-side: the first segment, scanning newest to oldest,
whose index contains `key`, together with the mapped offset. -/
def firstHitL : List Segment → List Nat → Option (Segment × Nat)
  | [], _ => none
  | s :: rest, key =>
      match s.index key with
      | some off => some (s, off)
      | none => firstHitL rest key

def firstHit (ss : List Segment) (key : List Nat) : Option (Segment × Nat) :=
  firstHitL ss.reverse key

theorem dbGetLoop_firstHitL (l : List Segment) (key : List Nat) :
    dbGetLoop l key
      = match firstHitL l key with
        | none => .error .keyNotFound
        | some (s, off) =>
            match segRead s.file off with
            | .ok kv => .ok kv.2
            | .error e => .error (.ioFail e) := by
  induction l with
  | nil => rfl
  | cons s rest ih =>
      rw [dbGetLoop, firstHitL]
      cases s.index key with
      | some off => rfl
      | none => exact ih

/-- `DB.Set` from rascaldb.go: the actor looks up the last (active)
segment of the published slice and invokes `write` on it; the caller gets
that write's error.  The booleans model the underlying I/O outcomes. -/
def dbSet (ss : List Segment) (key value : List Nat) (wOk sOk : Bool) :
    Option WErr × List Segment :=
  match ss.getLast? with
  | none => (some .writeFailed, ss)
  | some s =>
      let r := segWrite s key value wOk sOk
      (r.1, ss.dropLast ++ [r.2])

/-! ## Trunk (manifest file) -/

/-- `writeSegmentNames` body: one filename per line,
`buf.WriteString(segName + "\n")` for each name in order. -/
def renderNames (names : List (List Nat)) : List Nat :=
  names.foldr (fun n acc => n ++ 10 :: acc) []

/-- `writeSegmentNames(path, names)` from trunk.go.  The file is opened
with `os.O_CREATE|os.O_WRONLY` — created empty when absent, and NOT
truncated when present — and the rendered lines are written from
position 0.  `prior` is the manifest content before the call (`none`
when the file does not exist); the result is the content after. -/
def writeSegmentNames (prior : Option (List Nat))
    (names : List (List Nat)) : List Nat :=
  writeAt (prior.getD []) 0 (renderNames names)

/-- `bufio.Scanner` line splitting: one token per line, a trailing newline
produces no extra empty token, a last line without a newline is still a
token, and an empty input yields no tokens.  (The scanner would also strip
a trailing carriage return; the engine never writes one.) -/
def splitLinesAux : List Nat → List Nat → List (List Nat)
  | [], cur => [cur.reverse]
  | c :: rest, cur =>
      if c = 10 then
        match rest with
        | [] => [cur.reverse]
        | _ :: _ => cur.reverse :: splitLinesAux rest []
      else splitLinesAux rest (c :: cur)

def splitLines : List Nat → List (List Nat)
  | [] => []
  | b => splitLinesAux b []

/-- `readSegmentNames(path)` from trunk.go applied to an existing
manifest's content: the list of lines. -/
def readSegmentNames (content : List Nat) : List (List Nat) :=
  splitLines content

/-! ## The directory and `Open` -/

/-- The database directory: the trunk file's content (`none` when the
file does not exist) and the segment files by name. -/
structure FS where
  trunk : Option (List Nat)
  files : List (List Nat × List Nat)

def fsGet : List (List Nat × List Nat) → List Nat → Option (List Nat)
  | [], _ => none
  | (n, c) :: rest, q => if n = q then some c else fsGet rest q

def fsPut (files : List (List Nat × List Nat)) (n c : List Nat) :
    List (List Nat × List Nat) :=
  match files with
  | [] => [(n, c)]
  | (n2, c2) :: rest =>
      if n2 = n then (n, c) :: rest else (n2, c2) :: fsPut rest n c

inductive OpenErr where
  | missingSegment (name : List Nat)
  | loadFailed (e : RErr)
deriving DecidableEq

/-- A segment as produced by `openSegment`: both handles at position 0,
`offset` 0, empty index (`loadIndex` is a separate step). -/
def freshSeg (n content : List Nat) : Segment :=
  { name := n, file := content, wpos := 0, offset := 0, index := emptyIndex }

/-- The loop in `Open` over the trunk's filenames: open each segment
read-only (`os.Open` fails when the file is absent) and load its index. -/
def openSegsRO (files : List (List Nat × List Nat)) :
    List (List Nat) → Except OpenErr (List Segment)
  | [] => .ok []
  | n :: ns =>
      match fsGet files n with
      | none => .error (.missingSegment n)
      | some content =>
          match loadLoop content 0 emptyIndex with
          | .error e => .error (.loadFailed e)
          | .ok idx =>
              match openSegsRO files ns with
              | .error e => .error e
              | .ok rest => .ok ({ freshSeg n content with index := idx } :: rest)

/-- `Open` from rascaldb.go (the revision in src/rascaldb.go).  When the
trunk file is absent this is a new database and `writeSegmentNames(path,
nil)` is called — note the generated name of the fresh writable segment is
NOT added to the trunk.  All trunk-listed segments are opened read-only
and indexed, then one fresh writable segment named `newName` (the
`segmentNamer()` output) is created and appended to the published slice. -/
def openDB (fs : FS) (newName : List Nat) :
    Except OpenErr (List Segment × FS) :=
  let fs1 : FS :=
    match fs.trunk with
    | none => { fs with trunk := some (writeSegmentNames none []) }
    | some _ => fs
  let filenames : List (List Nat) :=
    match fs.trunk with
    | none => []
    | some content => readSegmentNames content
  match openSegsRO fs1.files filenames with
  | .error e => .error e
  | .ok ss =>
      let content := (fsGet fs1.files newName).getD []
      let fs2 : FS := { fs1 with files := fsPut fs1.files newName content }
      .ok (ss ++ [freshSeg newName content], fs2)

/-- `Close` releases file handles; on-disk state afterwards is the trunk
as-is plus every open segment's file content. -/
def persist (fs : FS) (ss : List Segment) : FS :=
  { fs with files := ss.foldl (fun fls s => fsPut fls s.name s.file) fs.files }

/-! ## Concrete data used in scenarios and witnesses -/

/-- "name" -/
def demoKey : List Nat := [110, 97, 109, 101]

/-- "Bob" -/
def demoVal1 : List Nat := [66, 111, 98]

/-- "Jon" -/
def demoVal2 : List Nat := [74, 111, 110]

def demoRecs : List (List Nat × List Nat) :=
  [(demoKey, demoVal1), (demoKey, demoVal2)]

/-- "Moist von Lipwig" -/
def moistVal : List Nat :=
  [77, 111, 105, 115, 116, 32, 118, 111, 110, 32, 76, 105, 112, 119, 105, 103]

/-- Fresh generated segment names for the two `Open` calls ("s1", "s2"). -/
def seg1Name : List Nat := [115, 49]

def seg2Name : List Nat := [115, 50]

/-- The fresh empty directory. -/
def fs0 : FS := { trunk := none, files := [] }

/-- First `Open` of the fresh directory. -/
def scenOpen1 : Except OpenErr (List Segment × FS) := openDB fs0 seg1Name

def scenDB1 : List Segment := (scenOpen1.toOption.map Prod.fst).getD []

def scenFS1 : FS := (scenOpen1.toOption.map Prod.snd).getD fs0

/-- `Set("name", "Moist von Lipwig")` with the underlying I/O succeeding. -/
def scenSet : Option WErr × List Segment :=
  dbSet scenDB1 demoKey moistVal true true

def scenDB2 : List Segment := scenSet.2

/-- The directory after `Close()`. -/
def scenFS2 : FS := persist scenFS1 scenDB2

/-- Reopening the same directory. -/
def scenOpen2 : Except OpenErr (List Segment × FS) := openDB scenFS2 seg2Name

def scenDB3 : List Segment := (scenOpen2.toOption.map Prod.fst).getD []

/-! ## Claim theorems -/

/-- C1.  The concrete scenario of spec section 8 evaluated against the
`Open` of src/rascaldb.go: `Open` on a fresh directory succeeds, but the
manifest it leaves behind contains NO segment name (the generated name of
the fresh writable segment is never persisted, `writeSegmentNames(path,
nil)` writes an empty trunk); `Set` and the first `Get` behave as claimed;
after `Close()` and a reopen, `Get("name")` returns `ErrKeyNotFound`
instead of `"Moist von Lipwig"` — the sole data segment is orphaned.  This
contradicts the claim (and the README's promise that the sequence of
segments is stored in the trunk file and that the index is reloaded on
open); the repository's revised `Open` stores the generated name as the
sole trunk entry instead. -/
theorem open_scenario_c1 :
    scenOpen1.toOption.isSome = true ∧
    readSegmentNames (scenFS1.trunk.getD []) = [] ∧
    scenSet.1 = none ∧
    dbGet scenDB2 demoKey = .ok moistVal ∧
    scenOpen2.toOption.isSome = true ∧
    dbGet scenDB3 demoKey = .error .keyNotFound :=
  ⟨rfl, rfl, rfl, rfl, rfl, rfl⟩

/-- C2 counterexample.  On a buffer with no delimiter after the 4-byte
header, `decode` does not signal any error: it silently returns the empty
key and nil value, indistinguishable from decoding a legitimate record
with an empty key and empty value. -/
theorem decode_noDelim_counterexample_c2 :
    decode [5, 0, 0, 0, 65] = ([], []) ∧
    decode [5, 0, 0, 0, 65] = decode (encode [] []) :=
  ⟨rfl, rfl⟩

/-- C2 (amended).  For every buffer whose bytes after the 4-byte length
header contain no 0x00 delimiter, `decode` returns the sentinel pair
(empty key, nil value) — Go `("", nil)` — rather than signaling a decode
error. -/
theorem decode_noDelim_c2 (b : List Nat)
    (h : ∀ x ∈ b.drop recordLenSize, x ≠ kvDelim) :
    decode b = ([], []) := by
  simp [decode, indexByte_none _ _ h]

theorem decode_noDelim_c2_witness :
    (∀ x ∈ ([5, 0, 0, 0, 65] : List Nat).drop recordLenSize, x ≠ kvDelim) ∧
    decode [5, 0, 0, 0, 65] = ([], []) :=
  ⟨by decide, decode_noDelim_c2 [5, 0, 0, 0, 65] (by decide)⟩

/-- C3.  Round-trip: for every key containing no delimiter byte and every
value (the value may contain 0x00 freely, the split uses only the first
occurrence), `decode (encode k v) = (k, v)`. -/
theorem decode_encode_c3 (key value : List Nat)
    (hk : ∀ x ∈ key, x ≠ kvDelim) :
    decode (encode key value) = (key, value) :=
  decode_encode key value hk

theorem decode_encode_c3_witness :
    (∀ x ∈ ([110] : List Nat), x ≠ kvDelim) ∧
    decode (encode [110] [0, 66]) = ([110], [0, 66]) :=
  ⟨by decide, decode_encode_c3 [110] [0, 66] (by decide)⟩

/-- C4.  `encode k v` begins with the 4 little-endian length bytes of
`4 + len(k) + 1 + len(v)` (the 4-byte field carries this value modulo
2^32, exactly as Go's `PutUint32(uint32(...))` does), and the buffer's
total length is exactly `4 + len(k) + 1 + len(v)`. -/
theorem encode_header_c4 (key value : List Nat) :
    (encode key value).take 4 = le32 (4 + key.length + 1 + value.length) ∧
    (encode key value).length = 4 + key.length + 1 + value.length := by
  constructor
  · have ht : (encode key value).take 4 = le32 (recordLen key value) := by
      rw [encode]
      exact List.take_left (le32 (recordLen key value)) (key ++ kvDelim :: value)
    rw [ht, recordLen_mod, le32_mod]
  · exact encode_length key value

/-- C5.  From a write-consistent segment state (`wpos = offset = file
length`, as holds for the engine's freshly created writable segment and is
preserved by every successful write), for a delimiter-free key and a
record below the 2^32 size limit: `write(k, v)` succeeds, `read` at the
old offset returns `(k, v)`, the index maps `k` to that offset, and the
running offset advances by `4 + len(k) + 1 + len(v)`. -/
theorem segWrite_read_c5 (s : Segment) (key value : List Nat)
    (hk : ∀ x ∈ key, x ≠ kvDelim)
    (hov : 4 + key.length + 1 + value.length < U32)
    (hw : s.wpos = s.offset) (hf : s.offset = s.file.length) :
    (segWrite s key value true true).1 = none ∧
    segRead (segWrite s key value true true).2.file s.offset
      = .ok (key, value) ∧
    (segWrite s key value true true).2.index key = some s.offset ∧
    (segWrite s key value true true).2.offset
      = s.offset + (4 + key.length + 1 + value.length) := by
  rw [segWrite_ok]
  refine ⟨rfl, ?_, ?_, ?_⟩
  · dsimp only
    rw [hw, hf, writeAt_append]
    have h2 := segRead_at_record s.file key value [] hk hov
    simpa using h2
  · dsimp only
    simp [updIndex]
  · dsimp only
    rw [encode_length]

theorem segWrite_read_c5_witness :
    (segWrite (freshSeg [] []) demoKey demoVal1 true true).1 = none ∧
    segRead (segWrite (freshSeg [] []) demoKey demoVal1 true true).2.file 0
      = .ok (demoKey, demoVal1) ∧
    (segWrite (freshSeg [] []) demoKey demoVal1 true true).2.index demoKey
      = some 0 ∧
    (segWrite (freshSeg [] []) demoKey demoVal1 true true).2.offset
      = 0 + (4 + 4 + 1 + 3) :=
  segWrite_read_c5 (freshSeg [] []) demoKey demoVal1 (by decide) (by decide)
    rfl rfl

/-- C6.  `loadIndex` replays the whole file from offset 0: on a file that
is a concatenation of well-formed records it terminates successfully at
end-of-file (no error) with the index mapping each key to the offset of
its last record (last-write-wins, cursor advancing by each record's
encoded length); and a first read failing with anything other than
`io.EOF` is returned as a fatal error. -/
theorem loadIndex_replay_c6 (n : List Nat) (ps : List (List Nat × List Nat))
    (h : goodRecs ps) :
    loadIndex (freshSeg n (encodeAll ps))
      = .ok { freshSeg n (encodeAll ps) with
              index := fun q => lastOffset ps 0 q } ∧
    (∀ s e, segRead s.file 0 = .error e → e ≠ .eof →
      loadIndex s = .error e) := by
  constructor
  · have h1 := loadLoop_encodeAll ps h [] emptyIndex
    simp only [List.nil_append, List.length_nil] at h1
    have h2 : mergeIdx emptyIndex ps 0 = fun q => lastOffset ps 0 q := by
      funext q
      rw [mergeIdx]
      cases lastOffset ps 0 q with
      | some o => rfl
      | none => rfl
    rw [h2] at h1
    rw [loadIndex,
      show (freshSeg n (encodeAll ps)).file = encodeAll ps from rfl,
      show (freshSeg n (encodeAll ps)).index = emptyIndex from rfl, h1]
    rfl
  · intro s e hre hne
    have hl : loadLoop s.file 0 s.index = .error e := by
      rw [loadLoop]
      split
      · rename_i key value hr2
        rw [hre] at hr2
        exact absurd hr2 (by simp)
      · rename_i hr2
        rw [hre] at hr2
        injection hr2 with h2
        exact absurd h2 hne
      · rename_i e2 hne2 hr2
        rw [hre] at hr2
        injection hr2 with h2
        rw [h2]
    rw [loadIndex, hl]

theorem loadIndex_replay_c6_witness :
    loadIndex (freshSeg [] (encodeAll demoRecs))
      = .ok { freshSeg [] (encodeAll demoRecs) with
              index := fun q => lastOffset demoRecs 0 q } ∧
    loadIndex (freshSeg [] [2, 0, 0, 0]) = .error .slicePanic :=
  ⟨(loadIndex_replay_c6 [] demoRecs (by decide)).1,
   (loadIndex_replay_c6 [] demoRecs (by decide)).2
     (freshSeg [] [2, 0, 0, 0]) .slicePanic rfl (by decide)⟩

/-- C7.  `Get` scans the published segment list newest to oldest; the
first segment whose index contains the key determines the result (its
mapped offset is read and decoded, the value returned, any read error
propagated), and when no segment's index contains the key the result is
`ErrKeyNotFound`, never an empty value. -/
theorem dbGet_scan_c7 (ss : List Segment) (key : List Nat) :
    dbGet ss key
      = match firstHit ss key with
        | none => .error .keyNotFound
        | some (s, off) =>
            match segRead s.file off with
            | .ok kv => .ok kv.2
            | .error e => .error (.ioFail e) := by
  rw [dbGet, firstHit]
  exact dbGetLoop_firstHitL ss.reverse key

/-- C8.  Within one segment, starting from a fresh writable segment state:
the running offset never decreases over any sequence of successful writes
(it grows by the total encoded size, and each single write strictly
increases it by its record's encoded length), the file is exactly the
records appended so far, and after the batch the index maps every appended
key to the offset of its most recent record in the file
(`mergeIdx emptyIndex`, the last-write-wins map). -/
theorem segment_invariant_c8 (ps : List (List Nat × List Nat)) (s : Segment)
    (hw : s.wpos = s.offset) (hf : s.offset = s.file.length)
    (hidx : s.index = emptyIndex) :
    s.offset ≤ (writeAll s ps).offset ∧
    (writeAll s ps).offset = s.offset + (encodeAll ps).length ∧
    (∀ key value,
      (segWrite s key value true true).2.offset
        = s.offset + (encode key value).length ∧
      s.offset < (segWrite s key value true true).2.offset) ∧
    (writeAll s ps).file = s.file ++ encodeAll ps ∧
    (writeAll s ps).index = mergeIdx emptyIndex ps s.offset := by
  obtain ⟨ho, hfl, hwp, hix⟩ := writeAll_props ps s hw hf
  refine ⟨by omega, ho, ?_, hfl, by rw [hix, hidx]⟩
  intro key value
  rw [segWrite_ok]
  refine ⟨rfl, ?_⟩
  have hpos : 0 < (encode key value).length := by
    rw [encode_length]; omega
  dsimp only
  omega

theorem segment_invariant_c8_witness :
    (0 : Nat) ≤ (writeAll (freshSeg [] []) demoRecs).offset ∧
    (writeAll (freshSeg [] []) demoRecs).offset
      = 0 + (encodeAll demoRecs).length ∧
    ((segWrite (freshSeg [] []) demoKey demoVal1 true true).2.offset
        = 0 + (encode demoKey demoVal1).length ∧
      (0 : Nat)
        < (segWrite (freshSeg [] []) demoKey demoVal1 true true).2.offset) ∧
    (writeAll (freshSeg [] []) demoRecs).file = [] ++ encodeAll demoRecs ∧
    (writeAll (freshSeg [] []) demoRecs).index
      = mergeIdx emptyIndex demoRecs 0 := by
  have h := segment_invariant_c8 demoRecs (freshSeg [] []) rfl rfl rfl
  exact ⟨h.1, h.2.1, h.2.2.1 demoKey demoVal1, h.2.2.2.1, h.2.2.2.2⟩

/-- C9.  `writeSegmentNames` opens the manifest with `O_CREATE|O_WRONLY`
but without `O_TRUNC`: when the prior content ("fizz\nbazz\n") is longer
than the rendered new list (["c"]), the old tail survives and a subsequent
`readSegmentNames` returns ["c", "zz", "bazz"], not the written list —
contradicting the claimed wholesale replacement. -/
theorem writeSegmentNames_noTrunc_c9 :
    readSegmentNames
        (writeSegmentNames (some [102, 105, 122, 122, 10, 98, 97, 122, 122, 10])
          [[99]])
      = [[99], [122, 122], [98, 97, 122, 122]] ∧
    readSegmentNames
        (writeSegmentNames (some [102, 105, 122, 122, 10, 98, 97, 122, 122, 10])
          [[99]])
      ≠ [[99]] :=
  ⟨rfl, by decide⟩

/-- C10.  When the underlying append (`fw.Write`) or the `fw.Sync` fails,
`segment.write` returns the error before any in-memory mutation: the
index and the running offset of the resulting segment state are exactly
those of the input state. -/
theorem segWrite_error_c10 (s : Segment) (key value : List Nat)
    (wOk sOk : Bool) (h : wOk = false ∨ sOk = false) :
    (segWrite s key value wOk sOk).1.isSome = true ∧
    (segWrite s key value wOk sOk).2.index = s.index ∧
    (segWrite s key value wOk sOk).2.offset = s.offset := by
  rcases h with h | h
  · subst h
    exact ⟨rfl, rfl, rfl⟩
  · subst h
    cases wOk with
    | false => exact ⟨rfl, rfl, rfl⟩
    | true => exact ⟨rfl, rfl, rfl⟩

theorem segWrite_error_c10_witness :
    (segWrite (freshSeg [] []) demoKey demoVal1 true false).1.isSome = true ∧
    (segWrite (freshSeg [] []) demoKey demoVal1 true false).2.index
      = (freshSeg [] []).index ∧
    (segWrite (freshSeg [] []) demoKey demoVal1 true false).2.offset
      = (freshSeg [] []).offset :=
  segWrite_error_c10 (freshSeg [] []) demoKey demoVal1 true false (Or.inr rfl)

end RascalDB
